import Mathlib

/-!
Verification development for the dagviz repository.

The development shallow-embeds the layout renderer (`src/dagviz/render.py`),
the palette generator (`src/dagviz/style/colors.py`), and — where the claims
need the plot builder whose module `abstract.py` is not part of the sources —
a builder modelled from the specification.  The drawing backend is embedded
as a trace of primitive calls: each `style.place_*` invocation of the source
becomes one `Prim` value, so a rendered output is the list of primitive calls
in the order the source issues them (the backend only serializes them).
-/

namespace Dagviz

/-- A cell of a row (class `AbstractColumn` of `abstract.py`, as consumed by
`render.py`): a column index, a color id, the `is_node` / `is_input` roles
(the same cell may carry both, e.g. a straight pass-through), the
final-consumer flag `is_last`, the back-reference `start_row` to the row where
the track was opened (embedded as that row's index into the plot), and the
successor count recorded on node cells (never read by `render`). -/
structure AbstractColumn where
  column : Int
  color : Nat
  is_node : Bool
  is_input : Bool
  is_last : Bool
  start_row : Nat
  nsucc : Nat
deriving DecidableEq, Inhabited

/-- A row of the abstract plot: its index `row`, its display label and its
cells in iteration order (`for col in row`). -/
structure AbstractRow where
  row : Nat
  label : String
  cells : List AbstractColumn
deriving DecidableEq, Inhabited

/-- The abstract plot: rows plus the two derived scalars `colors` (palette
size) and `columns.start` (minimum used column index); `render` passes both
to the style constructor, which does not affect the primitive call trace. -/
structure AbstractPlot where
  rows : List AbstractRow
  colors : Nat
  columns_start : Int
deriving DecidableEq, Inhabited

/-- One drawing-backend primitive call issued by `render` (the methods of
`iStyle`, implemented in `src/dagviz/style/metro.py`).  Coordinates are
(column, row) pairs in plot space, colors are palette indices. -/
inductive Prim where
  | place_node : Int × Nat → Nat → String → Prim
  | place_left_hline : Int × Nat → Int × Nat → Nat → Prim
  | place_right_hline : Int × Nat → Int × Nat → Nat → Prim
  | place_vline_arc : Int × Nat → Int × Nat → Nat → Prim
  | place_vline_node : Int × Nat → Int × Nat → Nat → Prim
  | place_left_arc : Int × Nat → Nat → Prim
  | place_right_arc : Int × Nat → Nat → Prim
  | place_label : Int × Nat → Int × Nat → String → Prim
deriving DecidableEq, Inhabited

/-- Look up a cell of a row by column index (the dictionary access
`row.columns[c]` of the source; `none` embeds a `KeyError`). -/
def AbstractRow.columnAt (r : AbstractRow) (c : Int) : Option AbstractColumn :=
  r.cells.find? (fun cell => cell.column == c)

/-- Look up a row of the plot by row index.  In the source `col.start_row` is
a direct object reference into the plot, which the embedding represents by
the row index; the builder guarantees the row exists. -/
def AbstractPlot.rowAt (p : AbstractPlot) (i : Nat) : Option AbstractRow :=
  p.rows.find? (fun r => r.row == i)

/-- The color read by `render` for vertical segments:
`col.start_row.columns[col.column].color`. -/
def originColor (p : AbstractPlot) (col : AbstractColumn) : Option Nat := do
  let r ← p.rowAt col.start_row
  let c ← r.columnAt col.column
  pure c.color

/-- The per-row mutable state of the column scan in `render`: the last column
index seen, the pending-arcs buffer `arcs`, the node position `nodepos`, and
the three-valued marker `node_pos` (1 before the node cell, 0 while the node
cell itself is being processed, -1 after it). -/
structure RowState where
  last_col : Int
  arcs : List AbstractColumn
  nodepos : Int × Nat
  node_pos : Int
deriving DecidableEq, Inhabited

/-- The `if col.is_node:` block of the scan: place the node, emit the pending
left horizontal connector if the buffer is non-empty (`len(arcs) != 0`, with
endpoints `(arcs[0].column, row)` and the node position), reset the buffer to
the node cell alone and set the marker to 0. -/
def nodePhase (rowIdx : Nat) (lbl : String) (st : RowState) (col : AbstractColumn) :
    RowState × List Prim :=
  if col.is_node then
    let curpos : Int × Nat := (col.column, rowIdx)
    match st.arcs with
    | [] =>
        ({ st with nodepos := curpos, arcs := [col], node_pos := 0 },
         [Prim.place_node curpos col.color lbl])
    | a :: _ =>
        ({ st with nodepos := curpos, arcs := [col], node_pos := 0 },
         [Prim.place_node curpos col.color lbl,
          Prim.place_left_hline (a.column, rowIdx) curpos a.color])
  else (st, [])

/-- The `if col.is_last:` vertical segment accompanying an arc cell:
`place_vline_arc((col.column, col.start_row.row), curpos, origin color)`. -/
def finalVline (p : AbstractPlot) (rowIdx : Nat) (col : AbstractColumn) :
    Option (List Prim) :=
  if col.is_last then
    (originColor p col).map (fun c =>
      [Prim.place_vline_arc (col.column, col.start_row) (col.column, rowIdx) c])
  else some []

/-- The `if col.is_input:` block of the scan, dispatching on the marker:
after the node (`node_pos < 0`) a left arc, at the node itself
(`node_pos == 0`) a straight vertical from the track origin, before the node
a right arc; in the two arc cases the cell is appended to the buffer and, if
it is the final consumer, followed by the vertical track segment. -/
def inputPhase (p : AbstractPlot) (rowIdx : Nat) (st : RowState) (col : AbstractColumn) :
    Option (RowState × List Prim) :=
  if col.is_input then
    let curpos : Int × Nat := (col.column, rowIdx)
    if st.node_pos < 0 then
      (finalVline p rowIdx col).map (fun ex =>
        ({ st with arcs := st.arcs ++ [col] },
         Prim.place_left_arc curpos col.color :: ex))
    else if st.node_pos = 0 then
      (originColor p col).map (fun c =>
        (st, [Prim.place_vline_node (col.column, col.start_row) curpos c]))
    else
      (finalVline p rowIdx col).map (fun ex =>
        ({ st with arcs := st.arcs ++ [col] },
         Prim.place_right_arc curpos col.color :: ex))
  else some (st, [])

/-- One iteration of the column loop of `render`: record `last_col`, run the
node block, the input block, and finally set the marker to -1 when the cell
was the node cell. -/
def processCol (p : AbstractPlot) (rowIdx : Nat) (lbl : String)
    (st : RowState) (col : AbstractColumn) : Option (RowState × List Prim) := do
  let (st1, tr1) := nodePhase rowIdx lbl st col
  let (st2, tr2) ← inputPhase p rowIdx st1 col
  let st3 := if col.is_node then { st2 with node_pos := -1 } else st2
  pure ({ st3 with last_col := col.column }, tr1 ++ tr2)

/-- The column loop of `render` over the remaining cells of a row, carrying
the row state and the trace accumulated so far. -/
def rowScan (p : AbstractPlot) (rowIdx : Nat) (lbl : String) :
    RowState × List Prim → List AbstractColumn → Option (RowState × List Prim)
  | acc, [] => some acc
  | (st, tr), col :: rest => do
      let (st2, tr2) ← processCol p rowIdx lbl st col
      rowScan p rowIdx lbl (st2, tr ++ tr2) rest

/-- The initial row state of `render`: `last_col = 0`, empty buffer,
`nodepos = (0, 0)`, marker `node_pos = 1`. -/
def initState : RowState :=
  { last_col := 0, arcs := [], nodepos := (0, 0), node_pos := 1 }

/-- The epilogue of a row in `render`: when the buffer holds at least two
entries, the right horizontal connector from `(arcs[0].column, row)` to
`(arcs[-1].column, row)` in the last entry's color; then the single label
placement at `(last_col + 1, row)` with a guide to the node position. -/
def endOfRow (st : RowState) (rowIdx : Nat) (lbl : String) : List Prim :=
  (match st.arcs with
   | a :: b :: rest =>
       let z := List.getLast (b :: rest) (List.cons_ne_nil b rest)
       [Prim.place_right_hline (a.column, rowIdx) (z.column, rowIdx) z.color]
   | _ => []) ++
  [Prim.place_label st.nodepos (st.last_col + 1, rowIdx) lbl]

/-- The body of the row loop of `render` for one row. -/
def renderRow (p : AbstractPlot) (r : AbstractRow) : Option (List Prim) :=
  (rowScan p r.row r.label (initState, []) r.cells).map
    (fun s => s.2 ++ endOfRow s.1 r.row r.label)

/-- Embedding of `render` from `src/dagviz/render.py` as a primitive-call trace: the rows are
processed in order and the backend finally serializes the result (`dumps`),
which adds no primitive calls.  `none` embeds the fatal lookup failure of an
input cell whose origin cell cannot be found (an internal-consistency error,
impossible on builder-produced plots). -/
def render (p : AbstractPlot) : Option (List Prim) := do
  let traces ← p.rows.mapM (renderRow p)
  pure traces.flatten

/-- Recognize the pre-node (left) horizontal connector primitive. -/
def isLeftHline : Prim → Bool
  | .place_left_hline _ _ _ => true
  | _ => false

/-- Recognize the end-of-row (right) horizontal connector primitive. -/
def isRightHline : Prim → Bool
  | .place_right_hline _ _ _ => true
  | _ => false

/-- Recognize any horizontal connector primitive. -/
def isHline (q : Prim) : Bool := isLeftHline q || isRightHline q

/-- Recognize the left arc primitive. -/
def isLeftArc : Prim → Bool
  | .place_left_arc _ _ => true
  | _ => false

/-- Recognize the right arc primitive. -/
def isRightArc : Prim → Bool
  | .place_right_arc _ _ => true
  | _ => false

/-- Recognize either vertical-segment primitive. -/
def isVline : Prim → Bool
  | .place_vline_arc _ _ _ => true
  | .place_vline_node _ _ _ => true
  | _ => false

/-- Recognize the label-placement primitive. -/
def isLabelPrim : Prim → Bool
  | .place_label _ _ _ => true
  | _ => false

/-! ### Concrete plots used as test inputs -/

/-- A single-row plot whose row holds exactly one pre-node input cell (at
column 0, not a final consumer, originating in this same row) followed by
the node cell at column 1. -/
def onePreArcPlot : AbstractPlot :=
  ⟨[⟨0, "a", [⟨0, 0, false, true, false, 0, 0⟩, ⟨1, 1, true, false, false, 0, 0⟩]⟩], 2, 0⟩

/-- The plot described by the merge scenario for nodes `[A, B, C]` with edges
`A→C` and `B→C`: rows A and B hold single node cells opening tracks at
columns 0 and 1, and row C holds two final input cells at columns 0 and 1 —
both preceding its node cell at column 2. -/
def mergePlot : AbstractPlot :=
  ⟨[⟨0, "A", [⟨0, 0, true, false, false, 0, 1⟩]⟩,
    ⟨1, "B", [⟨1, 1, true, false, false, 1, 1⟩]⟩,
    ⟨2, "C", [⟨0, 0, false, true, true, 0, 0⟩,
              ⟨1, 1, false, true, true, 1, 0⟩,
              ⟨2, 2, true, false, false, 2, 0⟩]⟩], 3, 0⟩

/-- The primitive trace of `mergePlot`. -/
def mergeTrace : List Prim :=
  [Prim.place_node (0, 0) 0 "A",
   Prim.place_label (0, 0) (1, 0) "A",
   Prim.place_node (1, 1) 1 "B",
   Prim.place_label (1, 1) (2, 1) "B",
   Prim.place_right_arc (0, 2) 0,
   Prim.place_vline_arc (0, 0) (0, 2) 0,
   Prim.place_right_arc (1, 2) 1,
   Prim.place_vline_arc (1, 1) (1, 2) 1,
   Prim.place_node (2, 2) 2 "C",
   Prim.place_left_hline (0, 2) (2, 2) 0,
   Prim.place_label (2, 2) (3, 2) "C"]

/-! ### Case analysis of one scan step -/

theorem finalVline_shape {p : AbstractPlot} {rowIdx : Nat} {col : AbstractColumn}
    {ex : List Prim} (h : finalVline p rowIdx col = some ex) :
    (col.is_last = false ∧ ex = []) ∨
    (col.is_last = true ∧ ∃ c, originColor p col = some c ∧
      ex = [Prim.place_vline_arc (col.column, col.start_row) (col.column, rowIdx) c]) := by
  unfold finalVline at h
  cases hl : col.is_last with
  | false => simp [hl] at h; exact Or.inl ⟨rfl, h⟩
  | true =>
    simp [hl] at h
    obtain ⟨c, hc, rfl⟩ := h
    exact Or.inr ⟨rfl, c, hc, rfl⟩

theorem processCol_skip {p : AbstractPlot} {rowIdx : Nat} {lbl : String}
    {st : RowState} {col : AbstractColumn}
    (hn : col.is_node = false) (hi : col.is_input = false) :
    processCol p rowIdx lbl st col = some ({ st with last_col := col.column }, []) := by
  simp [processCol, nodePhase, inputPhase, hn, hi]

theorem processCol_pre {p : AbstractPlot} {rowIdx : Nat} {lbl : String}
    {st : RowState} {col : AbstractColumn}
    (hn : col.is_node = false) (hi : col.is_input = true) (hp : 0 < st.node_pos) :
    processCol p rowIdx lbl st col =
      (finalVline p rowIdx col).map (fun ex =>
        ({ st with last_col := col.column, arcs := st.arcs ++ [col] },
         Prim.place_right_arc (col.column, rowIdx) col.color :: ex)) := by
  have h1 : ¬ st.node_pos < 0 := by omega
  have h2 : ¬ st.node_pos = 0 := by omega
  cases hfv : finalVline p rowIdx col with
  | none => simp [processCol, nodePhase, inputPhase, hn, hi, h1, h2, hfv]
  | some ex => simp [processCol, nodePhase, inputPhase, hn, hi, h1, h2, hfv]

theorem processCol_post {p : AbstractPlot} {rowIdx : Nat} {lbl : String}
    {st : RowState} {col : AbstractColumn}
    (hn : col.is_node = false) (hi : col.is_input = true) (hp : st.node_pos < 0) :
    processCol p rowIdx lbl st col =
      (finalVline p rowIdx col).map (fun ex =>
        ({ st with last_col := col.column, arcs := st.arcs ++ [col] },
         Prim.place_left_arc (col.column, rowIdx) col.color :: ex)) := by
  cases hfv : finalVline p rowIdx col with
  | none => simp [processCol, nodePhase, inputPhase, hn, hi, hp, hfv]
  | some ex => simp [processCol, nodePhase, inputPhase, hn, hi, hp, hfv]

/-- The pre-node left horizontal connector emitted at the node cell: one
connector when the buffer is non-empty, none otherwise. -/
def nodeHline (arcs : List AbstractColumn) (rowIdx : Nat) (nodeCol : Int) : List Prim :=
  match arcs with
  | [] => []
  | a :: _ => [Prim.place_left_hline (a.column, rowIdx) (nodeCol, rowIdx) a.color]

theorem processCol_node {p : AbstractPlot} {rowIdx : Nat} {lbl : String}
    {st : RowState} {col : AbstractColumn}
    (hn : col.is_node = true) (hi : col.is_input = false) :
    processCol p rowIdx lbl st col =
      some ({ last_col := col.column, arcs := [col],
              nodepos := (col.column, rowIdx), node_pos := -1 },
            Prim.place_node (col.column, rowIdx) col.color lbl ::
              nodeHline st.arcs rowIdx col.column) := by
  cases ha : st.arcs with
  | nil => simp [processCol, nodePhase, inputPhase, hn, hi, ha, nodeHline]
  | cons a rest => simp [processCol, nodePhase, inputPhase, hn, hi, ha, nodeHline]

theorem processCol_combined {p : AbstractPlot} {rowIdx : Nat} {lbl : String}
    {st : RowState} {col : AbstractColumn}
    (hn : col.is_node = true) (hi : col.is_input = true) :
    processCol p rowIdx lbl st col =
      (originColor p col).map (fun c =>
        ({ last_col := col.column, arcs := [col],
           nodepos := (col.column, rowIdx), node_pos := -1 },
         Prim.place_node (col.column, rowIdx) col.color lbl ::
           nodeHline st.arcs rowIdx col.column ++
           [Prim.place_vline_node (col.column, col.start_row) (col.column, rowIdx) c])) := by
  cases hoc : originColor p col with
  | none =>
    cases ha : st.arcs with
    | nil => simp [processCol, nodePhase, inputPhase, hn, hi, ha, hoc, nodeHline]
    | cons a rest => simp [processCol, nodePhase, inputPhase, hn, hi, ha, hoc, nodeHline]
  | some c =>
    cases ha : st.arcs with
    | nil => simp [processCol, nodePhase, inputPhase, hn, hi, ha, hoc, nodeHline]
    | cons a rest => simp [processCol, nodePhase, inputPhase, hn, hi, ha, hoc, nodeHline]

/-! ### Scan decomposition lemmas -/

theorem rowScan_append {p : AbstractPlot} {i : Nat} {lbl : String} :
    ∀ {l₁ l₂ : List AbstractColumn} {acc : RowState × List Prim},
    rowScan p i lbl acc (l₁ ++ l₂) =
      (rowScan p i lbl acc l₁).bind (fun acc2 => rowScan p i lbl acc2 l₂) := by
  intro l₁
  induction l₁ with
  | nil => intro l₂ acc; simp [rowScan]
  | cons c rest ih =>
    intro l₂ acc
    obtain ⟨st, tr⟩ := acc
    show rowScan p i lbl (st, tr) (c :: (rest ++ l₂)) = _
    cases hpc : processCol p i lbl st c with
    | none => simp [rowScan, hpc]
    | some s2 => simp [rowScan, hpc, ih]

/-- The value of `last_col` after scanning `cells` from a state whose
`last_col` is `d`: the column of the last cell, if any. -/
def lastColD (d : Int) (cells : List AbstractColumn) : Int :=
  match cells.getLast? with
  | none => d
  | some c => c.column

theorem lastColD_cons (d : Int) (c : AbstractColumn) (rest : List AbstractColumn) :
    lastColD d (c :: rest) = lastColD c.column rest := by
  cases rest with
  | nil => simp [lastColD]
  | cons b bs =>
    unfold lastColD
    rw [List.getLast?_cons_cons]
    cases hbl : (b :: bs).getLast? with
    | none => simp at hbl
    | some x => rfl

/-- Scanning cells none of which is a node cell, from a state strictly before
the node (`0 < node_pos`): every input cell is drawn as a right arc and
appended to the buffer, the marker and node position are unchanged, and no
left arc, horizontal connector or label is emitted. -/
theorem scanPre {p : AbstractPlot} {i : Nat} {lbl : String} :
    ∀ (cells : List AbstractColumn) (st : RowState) (tr₀ : List Prim)
      (out : RowState × List Prim),
    (∀ c ∈ cells, c.is_node = false) → 0 < st.node_pos →
    rowScan p i lbl (st, tr₀) cells = some out →
    out.1.arcs = st.arcs ++ cells.filter (·.is_input) ∧
    out.1.node_pos = st.node_pos ∧
    out.1.nodepos = st.nodepos ∧
    out.1.last_col = lastColD st.last_col cells ∧
    ∃ ex, out.2 = tr₀ ++ ex ∧
      ex.filter isRightArc = (cells.filter (·.is_input)).map
        (fun c => Prim.place_right_arc (c.column, i) c.color) ∧
      ex.filter isLeftArc = [] ∧ ex.filter isLeftHline = [] ∧
      ex.filter isRightHline = [] ∧ ex.filter isLabelPrim = [] := by
  intro cells
  induction cells with
  | nil =>
    intro st tr₀ out _ _ h
    simp [rowScan] at h
    subst h
    exact ⟨by simp, rfl, rfl, by simp [lastColD], [], by simp,
      by simp [List.filter], rfl, rfl, rfl, rfl⟩
  | cons c rest ih =>
    intro st tr₀ out hnn hp h
    have hcn : c.is_node = false := hnn c (by simp)
    have hrn : ∀ d ∈ rest, d.is_node = false := fun d hd => hnn d (by simp [hd])
    cases hci : c.is_input with
    | false =>
      rw [show rowScan p i lbl (st, tr₀) (c :: rest) =
            (processCol p i lbl st c).bind
              (fun s2 => rowScan p i lbl (s2.1, tr₀ ++ s2.2) rest) from rfl,
          processCol_skip hcn hci] at h
      simp at h
      obtain ⟨ha, hn, hnp2, hlc, ex, hex, hra, hla, hlh, hrh, hlb⟩ :=
        ih ⟨c.column, st.arcs, st.nodepos, st.node_pos⟩ tr₀ out hrn hp h
      refine ⟨by simpa [List.filter_cons, hci] using ha, hn, hnp2,
        by simpa [lastColD_cons] using hlc, ex, by simpa using hex, ?_, hla, hlh, hrh, hlb⟩
      simpa [List.filter_cons, hci] using hra
    | true =>
      rw [show rowScan p i lbl (st, tr₀) (c :: rest) =
            (processCol p i lbl st c).bind
              (fun s2 => rowScan p i lbl (s2.1, tr₀ ++ s2.2) rest) from rfl,
          processCol_pre hcn hci hp] at h
      cases hfv : finalVline p i c with
      | none => rw [hfv] at h; simp at h
      | some ex₀ =>
        rw [hfv] at h
        simp at h
        obtain ⟨ha, hn, hnp2, hlc, ex, hex, hra, hla, hlh, hrh, hlb⟩ :=
          ih ⟨c.column, st.arcs ++ [c], st.nodepos, st.node_pos⟩
            (tr₀ ++ Prim.place_right_arc (c.column, i) c.color :: ex₀) out hrn hp h
        have hex₀ : ex₀.filter isRightArc = [] ∧ ex₀.filter isLeftArc = [] ∧
            ex₀.filter isLeftHline = [] ∧ ex₀.filter isRightHline = [] ∧
            ex₀.filter isLabelPrim = [] := by
          rcases finalVline_shape hfv with ⟨_, rfl⟩ | ⟨_, cc, _, rfl⟩
          · simp
          · simp [isRightArc, isLeftArc, isLeftHline, isRightHline, isLabelPrim]
        refine ⟨?_, hn, hnp2, by simpa [lastColD_cons] using hlc,
          (Prim.place_right_arc (c.column, i) c.color :: ex₀) ++ ex, ?_, ?_, ?_, ?_, ?_, ?_⟩
        · rw [ha]; simp [List.filter_cons, hci]
        · rw [hex]; simp
        · rw [List.filter_append, hra]
          simp [List.filter_cons, hci, isRightArc, hex₀.1]
        · rw [List.filter_append, hla]
          simp [isLeftArc, hex₀.2.1]
        · rw [List.filter_append, hlh]
          simp [isLeftHline, hex₀.2.2.1]
        · rw [List.filter_append, hrh]
          simp [isRightHline, hex₀.2.2.2.1]
        · rw [List.filter_append, hlb]
          simp [isLabelPrim, hex₀.2.2.2.2]

/-- Scanning cells none of which is a node cell, from a state strictly after
the node (`node_pos < 0`): every input cell is drawn as a left arc and
appended to the buffer, the marker and node position are unchanged, and no
right arc, horizontal connector or label is emitted. -/
theorem scanPost {p : AbstractPlot} {i : Nat} {lbl : String} :
    ∀ (cells : List AbstractColumn) (st : RowState) (tr₀ : List Prim)
      (out : RowState × List Prim),
    (∀ c ∈ cells, c.is_node = false) → st.node_pos < 0 →
    rowScan p i lbl (st, tr₀) cells = some out →
    out.1.arcs = st.arcs ++ cells.filter (·.is_input) ∧
    out.1.node_pos = st.node_pos ∧
    out.1.nodepos = st.nodepos ∧
    out.1.last_col = lastColD st.last_col cells ∧
    ∃ ex, out.2 = tr₀ ++ ex ∧
      ex.filter isLeftArc = (cells.filter (·.is_input)).map
        (fun c => Prim.place_left_arc (c.column, i) c.color) ∧
      ex.filter isRightArc = [] ∧ ex.filter isLeftHline = [] ∧
      ex.filter isRightHline = [] ∧ ex.filter isLabelPrim = [] := by
  intro cells
  induction cells with
  | nil =>
    intro st tr₀ out _ _ h
    simp [rowScan] at h
    subst h
    exact ⟨by simp, rfl, rfl, by simp [lastColD], [], by simp,
      by simp [List.filter], rfl, rfl, rfl, rfl⟩
  | cons c rest ih =>
    intro st tr₀ out hnn hp h
    have hcn : c.is_node = false := hnn c (by simp)
    have hrn : ∀ d ∈ rest, d.is_node = false := fun d hd => hnn d (by simp [hd])
    cases hci : c.is_input with
    | false =>
      rw [show rowScan p i lbl (st, tr₀) (c :: rest) =
            (processCol p i lbl st c).bind
              (fun s2 => rowScan p i lbl (s2.1, tr₀ ++ s2.2) rest) from rfl,
          processCol_skip hcn hci] at h
      simp at h
      obtain ⟨ha, hn, hnp2, hlc, ex, hex, hla, hra, hlh, hrh, hlb⟩ :=
        ih ⟨c.column, st.arcs, st.nodepos, st.node_pos⟩ tr₀ out hrn hp h
      refine ⟨by simpa [List.filter_cons, hci] using ha, hn, hnp2,
        by simpa [lastColD_cons] using hlc, ex, by simpa using hex, ?_, hra, hlh, hrh, hlb⟩
      simpa [List.filter_cons, hci] using hla
    | true =>
      rw [show rowScan p i lbl (st, tr₀) (c :: rest) =
            (processCol p i lbl st c).bind
              (fun s2 => rowScan p i lbl (s2.1, tr₀ ++ s2.2) rest) from rfl,
          processCol_post hcn hci hp] at h
      cases hfv : finalVline p i c with
      | none => rw [hfv] at h; simp at h
      | some ex₀ =>
        rw [hfv] at h
        simp at h
        obtain ⟨ha, hn, hnp2, hlc, ex, hex, hla, hra, hlh, hrh, hlb⟩ :=
          ih ⟨c.column, st.arcs ++ [c], st.nodepos, st.node_pos⟩
            (tr₀ ++ Prim.place_left_arc (c.column, i) c.color :: ex₀) out hrn hp h
        have hex₀ : ex₀.filter isRightArc = [] ∧ ex₀.filter isLeftArc = [] ∧
            ex₀.filter isLeftHline = [] ∧ ex₀.filter isRightHline = [] ∧
            ex₀.filter isLabelPrim = [] := by
          rcases finalVline_shape hfv with ⟨_, rfl⟩ | ⟨_, cc, _, rfl⟩
          · simp
          · simp [isRightArc, isLeftArc, isLeftHline, isRightHline, isLabelPrim]
        refine ⟨?_, hn, hnp2, by simpa [lastColD_cons] using hlc,
          (Prim.place_left_arc (c.column, i) c.color :: ex₀) ++ ex, ?_, ?_, ?_, ?_, ?_, ?_⟩
        · rw [ha]; simp [List.filter_cons, hci]
        · rw [hex]; simp
        · rw [List.filter_append, hla]
          simp [List.filter_cons, hci, isLeftArc, hex₀.2.1]
        · rw [List.filter_append, hra]
          simp [isRightArc, hex₀.1]
        · rw [List.filter_append, hlh]
          simp [isLeftHline, hex₀.2.2.1]
        · rw [List.filter_append, hrh]
          simp [isRightHline, hex₀.2.2.2.1]
        · rw [List.filter_append, hlb]
          simp [isLabelPrim, hex₀.2.2.2.2]

theorem nodeHline_filters (arcs : List AbstractColumn) (i : Nat) (n : Int) :
    (nodeHline arcs i n).filter isLeftHline = nodeHline arcs i n ∧
    (nodeHline arcs i n).filter isRightArc = [] ∧
    (nodeHline arcs i n).filter isLeftArc = [] ∧
    (nodeHline arcs i n).filter isRightHline = [] ∧
    (nodeHline arcs i n).filter isLabelPrim = [] := by
  cases arcs with
  | nil => simp [nodeHline]
  | cons a rest =>
    simp [nodeHline, isLeftHline, isRightArc, isLeftArc, isRightHline, isLabelPrim]

/-- Decomposition of the scan of a full row `pre ++ nd :: post` whose unique
node cell is `nd`: the final state and the classes of primitives each phase
contributes. -/
theorem rowDecomp {p : AbstractPlot} {i : Nat} {lbl : String}
    {pre post : List AbstractColumn} {nd : AbstractColumn}
    {st : RowState} {tr : List Prim}
    (hpre : ∀ c ∈ pre, c.is_node = false) (hnd : nd.is_node = true)
    (hpost : ∀ c ∈ post, c.is_node = false)
    (h : rowScan p i lbl (initState, []) (pre ++ nd :: post) = some (st, tr)) :
    st.arcs = nd :: post.filter (·.is_input) ∧
    st.nodepos = (nd.column, i) ∧
    st.node_pos = -1 ∧
    st.last_col = lastColD nd.column post ∧
    ∃ exPre exNode exPost,
      tr = exPre ++ exNode ++ exPost ∧
      exPre.filter isRightArc = (pre.filter (·.is_input)).map
        (fun c => Prim.place_right_arc (c.column, i) c.color) ∧
      exPre.filter isLeftArc = [] ∧ exPre.filter isLeftHline = [] ∧
      exPre.filter isRightHline = [] ∧ exPre.filter isLabelPrim = [] ∧
      exNode.filter isLeftHline = nodeHline (pre.filter (·.is_input)) i nd.column ∧
      exNode.filter isRightArc = [] ∧ exNode.filter isLeftArc = [] ∧
      exNode.filter isRightHline = [] ∧ exNode.filter isLabelPrim = [] ∧
      exPost.filter isLeftArc = (post.filter (·.is_input)).map
        (fun c => Prim.place_left_arc (c.column, i) c.color) ∧
      exPost.filter isRightArc = [] ∧ exPost.filter isLeftHline = [] ∧
      exPost.filter isRightHline = [] ∧ exPost.filter isLabelPrim = [] := by
  rw [rowScan_append] at h
  cases h1 : rowScan p i lbl (initState, []) pre with
  | none => rw [h1] at h; simp at h
  | some acc1 =>
    rw [h1] at h
    obtain ⟨st1, tr1⟩ := acc1
    obtain ⟨ha1, hn1, hp1, hl1, exPre, hex1, hra1, hla1, hlh1, hrh1, hlb1⟩ :=
      scanPre pre initState [] (st1, tr1) hpre (by simp [initState]) h1
    simp only at ha1 hn1 hp1 hl1 hex1
    simp only [List.nil_append] at hex1
    rw [hex1] at h
    have harcs1 : st1.arcs = pre.filter (·.is_input) := by
      simpa [initState] using ha1
    -- the node step
    replace h : (processCol p i lbl st1 nd).bind
        (fun s2 => rowScan p i lbl (s2.1, exPre ++ s2.2) post) = some (st, tr) := h
    cases hni : nd.is_input with
    | false =>
      rw [processCol_node hnd hni] at h
      replace h : rowScan p i lbl
          (⟨nd.column, [nd], (nd.column, i), -1⟩,
           exPre ++ (Prim.place_node (nd.column, i) nd.color lbl ::
             nodeHline st1.arcs i nd.column)) post = some (st, tr) := h
      obtain ⟨ha2, hn2, hp2, hl2, exPost, hex2, hla2, hra2, hlh2, hrh2, hlb2⟩ :=
        scanPost post
          ⟨nd.column, [nd], (nd.column, i), -1⟩
          (exPre ++ (Prim.place_node (nd.column, i) nd.color lbl ::
            nodeHline st1.arcs i nd.column)) (st, tr) hpost (by simp) h
      simp only at ha2 hn2 hp2 hl2 hex2
      obtain ⟨hfh, hfra, hfla, hfrh, hflb⟩ := nodeHline_filters st1.arcs i nd.column
      refine ⟨by simpa using ha2, hp2, hn2, hl2,
        exPre, Prim.place_node (nd.column, i) nd.color lbl :: nodeHline st1.arcs i nd.column,
        exPost, by simpa using hex2, hra1, hla1, hlh1, hrh1, hlb1, ?_, ?_, ?_, ?_, ?_,
        hla2, hra2, hlh2, hrh2, hlb2⟩
      · rw [← harcs1]; simpa [isLeftHline] using hfh
      · simpa [isRightArc] using hfra
      · simpa [isLeftArc] using hfla
      · simpa [isRightHline] using hfrh
      · simpa [isLabelPrim] using hflb
    | true =>
      rw [processCol_combined hnd hni] at h
      cases hoc : originColor p nd with
      | none => rw [hoc] at h; simp at h
      | some cc =>
        rw [hoc] at h
        replace h : rowScan p i lbl
            (⟨nd.column, [nd], (nd.column, i), -1⟩,
             exPre ++ (Prim.place_node (nd.column, i) nd.color lbl ::
               nodeHline st1.arcs i nd.column ++
               [Prim.place_vline_node (nd.column, nd.start_row) (nd.column, i) cc])) post =
            some (st, tr) := h
        obtain ⟨ha2, hn2, hp2, hl2, exPost, hex2, hla2, hra2, hlh2, hrh2, hlb2⟩ :=
          scanPost post
            ⟨nd.column, [nd], (nd.column, i), -1⟩
            (exPre ++ (Prim.place_node (nd.column, i) nd.color lbl ::
              nodeHline st1.arcs i nd.column ++
              [Prim.place_vline_node (nd.column, nd.start_row) (nd.column, i) cc]))
            (st, tr) hpost (by simp) h
        simp only at ha2 hn2 hp2 hl2 hex2
        obtain ⟨hfh, hfra, hfla, hfrh, hflb⟩ := nodeHline_filters st1.arcs i nd.column
        refine ⟨by simpa using ha2, hp2, hn2, hl2,
          exPre, Prim.place_node (nd.column, i) nd.color lbl ::
            nodeHline st1.arcs i nd.column ++
            [Prim.place_vline_node (nd.column, nd.start_row) (nd.column, i) cc],
          exPost, by simpa using hex2, hra1, hla1, hlh1, hrh1, hlb1, ?_, ?_, ?_, ?_, ?_,
          hla2, hra2, hlh2, hrh2, hlb2⟩
        · rw [← harcs1]
          simp [List.filter_append, isLeftHline, hfh]
        · simp [List.filter_append, isRightArc]
          simpa [isRightArc] using hfra
        · simp [List.filter_append, isLeftArc]
          simpa [isLeftArc] using hfla
        · simp [List.filter_append, isRightHline]
          simpa [isRightHline] using hfrh
        · simp [List.filter_append, isLabelPrim]
          simpa [isLabelPrim] using hflb

theorem renderRow_eq {p : AbstractPlot} {r : AbstractRow} {tr : List Prim}
    (h : renderRow p r = some tr) :
    ∃ st str, rowScan p r.row r.label (initState, []) r.cells = some (st, str) ∧
      tr = str ++ endOfRow st r.row r.label := by
  unfold renderRow at h
  cases hs : rowScan p r.row r.label (initState, []) r.cells with
  | none => rw [hs] at h; simp at h
  | some acc =>
    rw [hs] at h
    obtain ⟨st, str⟩ := acc
    simp at h
    exact ⟨st, str, rfl, h.symm⟩

theorem endOfRow_filters (st : RowState) (i : Nat) (lbl : String) :
    (endOfRow st i lbl).filter isLeftHline = [] ∧
    (endOfRow st i lbl).filter isRightArc = [] ∧
    (endOfRow st i lbl).filter isLeftArc = [] ∧
    (endOfRow st i lbl).filter isLabelPrim =
      [Prim.place_label st.nodepos (st.last_col + 1, i) lbl] ∧
    (endOfRow st i lbl).filter isRightHline =
      (match st.arcs with
       | a :: b :: rest =>
           let z := List.getLast (b :: rest) (List.cons_ne_nil b rest)
           [Prim.place_right_hline (a.column, i) (z.column, i) z.color]
       | _ => []) := by
  match ha : st.arcs with
  | [] =>
    simp [endOfRow, ha, isLeftHline, isRightArc, isLeftArc, isLabelPrim, isRightHline]
  | [a] =>
    simp [endOfRow, ha, isLeftHline, isRightArc, isLeftArc, isLabelPrim, isRightHline]
  | a :: b :: rest =>
    simp [endOfRow, ha, isLeftHline, isRightArc, isLeftArc, isLabelPrim, isRightHline]

/-! ### Claim C1 -/

/-- C1, counterexample: in `onePreArcPlot` the single row accumulates exactly
one pre-node arc (one input cell before the node), yet `render` emits a
horizontal connector for that side — `place_left_hline` is issued whenever
the pending-arcs buffer is non-empty (`len(arcs) != 0`), not only when it
holds at least two entries.  This refutes the claim that with only one arc on
a given side no horizontal connector is emitted. -/
theorem c1_counterexample :
    (onePreArcPlot.rows.map (fun r => (r.cells.filter (·.is_input)).length)) = [1] ∧
    render onePreArcPlot = some
      [Prim.place_right_arc (0, 0) 0,
       Prim.place_node (1, 0) 1 "a",
       Prim.place_left_hline (0, 0) (1, 0) 0,
       Prim.place_label (1, 0) (2, 0) "a"] ∧
    ((render onePreArcPlot).map (fun tr => (tr.filter isHline).length)) = some 1 := by
  decide

/-- C1, amended: for a row `pre ++ nd :: post` with unique node cell `nd`,
the pre-node horizontal connector (`place_left_hline`, joining the first
pre-node arc's column and the node's own position) is emitted exactly when at
least ONE pre-node arc was accumulated, and the end-of-row horizontal
connector (`place_right_hline`, joining the node's position and the last
post-node arc's column) is emitted exactly when at least ONE arc remains
pending strictly after the node (the buffer then holds at least 2 entries
only because the node cell itself is its first entry). -/
theorem c1_amended {p : AbstractPlot} {r : AbstractRow}
    {pre post : List AbstractColumn} {nd : AbstractColumn} {tr : List Prim}
    (hc : r.cells = pre ++ nd :: post) (hnd : nd.is_node = true)
    (hpre : ∀ c ∈ pre, c.is_node = false) (hpost : ∀ c ∈ post, c.is_node = false)
    (hr : renderRow p r = some tr) :
    (pre.filter (·.is_input) = [] → tr.filter isLeftHline = []) ∧
    (∀ a l, pre.filter (·.is_input) = a :: l →
      tr.filter isLeftHline =
        [Prim.place_left_hline (a.column, r.row) (nd.column, r.row) a.color]) ∧
    (post.filter (·.is_input) = [] → tr.filter isRightHline = []) ∧
    (∀ z l, post.filter (·.is_input) = l ++ [z] →
      tr.filter isRightHline =
        [Prim.place_right_hline (nd.column, r.row) (z.column, r.row) z.color]) := by
  obtain ⟨st, str, hs, rfl⟩ := renderRow_eq hr
  rw [hc] at hs
  obtain ⟨harcs, hnp, hmark, hlast, exPre, exNode, exPost, rfl,
    _, _, h1lh, h1rh, _, h2lh, _, _, h2rh, _, _, _, h3lh, h3rh, _⟩ :=
    rowDecomp hpre hnd hpost hs
  obtain ⟨helh, _, _, _, herh⟩ := endOfRow_filters st r.row r.label
  have hLH : (exPre ++ exNode ++ exPost ++ endOfRow st r.row r.label).filter isLeftHline =
      nodeHline (pre.filter (·.is_input)) r.row nd.column := by
    simp [List.filter_append, h1lh, h2lh, h3lh, helh]
  have hRH : (exPre ++ exNode ++ exPost ++ endOfRow st r.row r.label).filter isRightHline =
      (match st.arcs with
       | a :: b :: rest =>
           let z := List.getLast (b :: rest) (List.cons_ne_nil b rest)
           [Prim.place_right_hline (a.column, r.row) (z.column, r.row) z.color]
       | _ => []) := by
    simp [List.filter_append, h1rh, h2rh, h3rh, herh]
  refine ⟨?_, ?_, ?_, ?_⟩
  · intro hemp; rw [hLH, hemp]; rfl
  · intro a l hal; rw [hLH, hal]; rfl
  · intro hemp
    rw [hRH, harcs, hemp]
  · intro z l hzl
    rw [hRH, harcs, hzl]
    cases l with
    | nil => simp
    | cons b bs =>
      simp only [List.cons_append]
      have h8 : (b :: (bs ++ [z])).getLast? = some z := by
        rw [show b :: (bs ++ [z]) = (b :: bs) ++ [z] from rfl]
        exact List.getLast?_concat _
      have h9 := List.getLast?_eq_getLast (b :: (bs ++ [z])) (List.cons_ne_nil b (bs ++ [z]))
      rw [h9] at h8
      have : List.getLast (b :: (bs ++ [z])) (List.cons_ne_nil b (bs ++ [z])) = z :=
        Option.some.inj h8
      simp [this]

/-- C1 witness: the amended theorem applied to the concrete single-row plot
`onePreArcPlot`, whose row is one input cell followed by the node cell. -/
theorem c1_amended_witness :
    List.filter isLeftHline
      [Prim.place_right_arc (0, 0) 0, Prim.place_node (1, 0) 1 "a",
       Prim.place_left_hline (0, 0) (1, 0) 0, Prim.place_label (1, 0) (2, 0) "a"] =
      [Prim.place_left_hline (0, 0) (1, 0) 0] :=
  (@c1_amended onePreArcPlot
      ⟨0, "a", [⟨0, 0, false, true, false, 0, 0⟩, ⟨1, 1, true, false, false, 0, 0⟩]⟩
      [⟨0, 0, false, true, false, 0, 0⟩] [] ⟨1, 1, true, false, false, 0, 0⟩
      [Prim.place_right_arc (0, 0) 0, Prim.place_node (1, 0) 1 "a",
       Prim.place_left_hline (0, 0) (1, 0) 0, Prim.place_label (1, 0) (2, 0) "a"]
      rfl rfl (by decide) (by decide) (by decide)).2.1
    ⟨0, 0, false, true, false, 0, 0⟩ [] rfl

/-! ### Claim C2 -/

/-- C2: in every rendered row `pre ++ nd :: post` with unique node cell `nd`,
each input cell preceding the node cell in the column scan is drawn with a
right-arc primitive at its coordinate, each input cell following the node
cell is drawn with a left-arc primitive, and in both cases the cell is
accumulated into the pending-arcs buffer: the buffer holds exactly the
pre-node inputs when the node cell is reached, and the node followed by the
post-node inputs at the end of the scan. -/
theorem c2_arcs {p : AbstractPlot} {r : AbstractRow}
    {pre post : List AbstractColumn} {nd : AbstractColumn} {tr : List Prim}
    (hc : r.cells = pre ++ nd :: post) (hnd : nd.is_node = true)
    (hpre : ∀ c ∈ pre, c.is_node = false) (hpost : ∀ c ∈ post, c.is_node = false)
    (hr : renderRow p r = some tr) :
    tr.filter isRightArc = (pre.filter (·.is_input)).map
      (fun c => Prim.place_right_arc (c.column, r.row) c.color) ∧
    tr.filter isLeftArc = (post.filter (·.is_input)).map
      (fun c => Prim.place_left_arc (c.column, r.row) c.color) ∧
    (∃ st1 tr1, rowScan p r.row r.label (initState, []) pre = some (st1, tr1) ∧
      st1.arcs = pre.filter (·.is_input)) ∧
    (∃ st2 tr2, rowScan p r.row r.label (initState, []) r.cells = some (st2, tr2) ∧
      st2.arcs = nd :: post.filter (·.is_input)) := by
  obtain ⟨st, str, hs, rfl⟩ := renderRow_eq hr
  rw [hc] at hs
  obtain ⟨harcs, hnp, hmark, hlast, exPre, exNode, exPost, htr,
    h1ra, h1la, _, _, _, _, h2ra, h2la, _, _, h3la, h3ra, _, _, _⟩ :=
    rowDecomp hpre hnd hpost hs
  obtain ⟨_, hera, hela, _, _⟩ := endOfRow_filters st r.row r.label
  refine ⟨?_, ?_, ?_, ⟨st, str, by rw [hc]; exact hs, harcs⟩⟩
  · rw [htr]
    simp [List.filter_append, h1ra, h2ra, h3ra, hera]
  · rw [htr]
    simp [List.filter_append, h1la, h2la, h3la, hela]
  · have hs2 := hs
    rw [rowScan_append] at hs2
    cases h1 : rowScan p r.row r.label (initState, []) pre with
    | none => rw [h1] at hs2; simp at hs2
    | some acc1 =>
      obtain ⟨st1, tr1⟩ := acc1
      obtain ⟨ha1, _, _, _, _⟩ :=
        scanPre pre initState [] (st1, tr1) hpre (by simp [initState]) h1
      exact ⟨st1, tr1, rfl, by simpa [initState] using ha1⟩

/-- C2 witness: the theorem applied to row C of the concrete `mergePlot`,
whose two input cells both precede the node cell. -/
theorem c2_arcs_witness :
    List.filter isRightArc
      [Prim.place_right_arc (0, 2) 0, Prim.place_vline_arc (0, 0) (0, 2) 0,
       Prim.place_right_arc (1, 2) 1, Prim.place_vline_arc (1, 1) (1, 2) 1,
       Prim.place_node (2, 2) 2 "C", Prim.place_left_hline (0, 2) (2, 2) 0,
       Prim.place_label (2, 2) (3, 2) "C"] =
      [Prim.place_right_arc (0, 2) 0, Prim.place_right_arc (1, 2) 1] :=
  (@c2_arcs mergePlot
      ⟨2, "C", [⟨0, 0, false, true, true, 0, 0⟩, ⟨1, 1, false, true, true, 1, 0⟩,
                ⟨2, 2, true, false, false, 2, 0⟩]⟩
      [⟨0, 0, false, true, true, 0, 0⟩, ⟨1, 1, false, true, true, 1, 0⟩] []
      ⟨2, 2, true, false, false, 2, 0⟩
      [Prim.place_right_arc (0, 2) 0, Prim.place_vline_arc (0, 0) (0, 2) 0,
       Prim.place_right_arc (1, 2) 1, Prim.place_vline_arc (1, 1) (1, 2) 1,
       Prim.place_node (2, 2) 2 "C", Prim.place_left_hline (0, 2) (2, 2) 0,
       Prim.place_label (2, 2) (3, 2) "C"]
      rfl rfl (by decide) (by decide) (by decide)).1

/-! ### Claim C9 -/

/-- A single-row plot whose node cell at column 0 is followed by one
(non-final) input cell at column 1. -/
def postArcPlot : AbstractPlot :=
  ⟨[⟨0, "a", [⟨0, 0, true, false, false, 0, 1⟩, ⟨1, 1, false, true, false, 0, 0⟩]⟩], 2, 0⟩

/-- C9: in a row `pre ++ nd :: post` with unique node cell `nd`, the node
cell is the first entry of the pending-arcs buffer once it has been visited
(it stays at the head through the end of the scan), so every end-of-row
right horizontal connector of that row has its left endpoint exactly at the
node's own column. -/
theorem c9_buffer_head {p : AbstractPlot} {r : AbstractRow}
    {pre post : List AbstractColumn} {nd : AbstractColumn}
    {st : RowState} {tr : List Prim}
    (hc : r.cells = pre ++ nd :: post) (hnd : nd.is_node = true)
    (hpre : ∀ c ∈ pre, c.is_node = false) (hpost : ∀ c ∈ post, c.is_node = false)
    (hs : rowScan p r.row r.label (initState, []) r.cells = some (st, tr)) :
    st.arcs.head? = some nd ∧
    ∀ tr2, renderRow p r = some tr2 → ∀ q ∈ tr2, isRightHline q = true →
      ∃ b c, q = Prim.place_right_hline (nd.column, r.row) b c := by
  rw [hc] at hs
  obtain ⟨harcs, hnp, hmark, hlast, exPre, exNode, exPost, htr,
    _, _, _, h1rh, _, _, _, _, h2rh, _, _, _, _, h3rh, _⟩ :=
    rowDecomp hpre hnd hpost hs
  refine ⟨by rw [harcs]; rfl, ?_⟩
  intro tr2 hr2 q hq hqrh
  obtain ⟨st', str', hs', rfl⟩ := renderRow_eq hr2
  rw [hc] at hs'
  rw [hs] at hs'
  obtain ⟨rfl, rfl⟩ : st = st' ∧ tr = str' := by
    have := Option.some.inj hs'
    exact ⟨congrArg Prod.fst this, congrArg Prod.snd this⟩
  have hmem : q ∈ (tr ++ endOfRow st r.row r.label).filter isRightHline :=
    List.mem_filter.mpr ⟨hq, hqrh⟩
  obtain ⟨_, _, _, _, herh⟩ := endOfRow_filters st r.row r.label
  rw [List.filter_append, htr] at hmem
  rw [List.filter_append, List.filter_append, h1rh, h2rh, h3rh, herh, harcs] at hmem
  cases hpi : post.filter (·.is_input) with
  | nil => rw [hpi] at hmem; simp at hmem
  | cons b bs =>
    rw [hpi] at hmem
    simp only [List.nil_append] at hmem
    have hq2 : q = Prim.place_right_hline (nd.column, r.row)
        (((b :: bs).getLast (List.cons_ne_nil b bs)).column, r.row)
        ((b :: bs).getLast (List.cons_ne_nil b bs)).color := by
      simpa using hmem
    exact ⟨_, _, hq2⟩

/-- C9 witness: the theorem applied to the single row of `postArcPlot`
(node at column 0, one pending arc after it). -/
theorem c9_buffer_head_witness :
    (RowState.arcs ⟨1, [⟨0, 0, true, false, false, 0, 1⟩,
        ⟨1, 1, false, true, false, 0, 0⟩], (0, 0), -1⟩).head? =
      some ⟨0, 0, true, false, false, 0, 1⟩ :=
  (@c9_buffer_head postArcPlot
      ⟨0, "a", [⟨0, 0, true, false, false, 0, 1⟩, ⟨1, 1, false, true, false, 0, 0⟩]⟩
      [] [⟨1, 1, false, true, false, 0, 0⟩] ⟨0, 0, true, false, false, 0, 1⟩
      ⟨1, [⟨0, 0, true, false, false, 0, 1⟩, ⟨1, 1, false, true, false, 0, 0⟩], (0, 0), -1⟩
      [Prim.place_node (0, 0) 0 "a", Prim.place_left_arc (1, 0) 1]
      rfl rfl (by decide) (by decide) (by decide)).1

/-! ### Claim C7 -/

theorem pairwise_le_lastColD :
    ∀ (l : List AbstractColumn) (d : AbstractColumn),
    (d :: l).Pairwise (fun a b => a.column < b.column) →
    ∀ c ∈ d :: l, c.column ≤ lastColD d.column l := by
  intro l
  induction l with
  | nil =>
    intro d _ c hc
    simp at hc
    subst hc
    simp [lastColD]
  | cons b bs ih =>
    intro d hp c hc
    rw [lastColD_cons]
    have hp2 : (b :: bs).Pairwise (fun a b => a.column < b.column) := hp.tail
    rcases List.mem_cons.mp hc with rfl | hc2
    · have hdb : c.column < b.column := (List.pairwise_cons.mp hp).1 b (by simp)
      have := ih b hp2 b (by simp)
      omega
    · exact ih b hp2 c hc2

/-- C7: in a rendered row `pre ++ nd :: post` whose cells appear in strictly
ascending column order (the iteration order of a row) with unique node cell
`nd`, exactly one label-placement primitive is emitted; it sits one column to
the right of the row's rightmost used column, at the row's own row index,
with a guide line back to the node position `(nd.column, row)`. -/
theorem c7_label {p : AbstractPlot} {r : AbstractRow}
    {pre post : List AbstractColumn} {nd : AbstractColumn} {tr : List Prim}
    (hc : r.cells = pre ++ nd :: post) (hnd : nd.is_node = true)
    (hpre : ∀ c ∈ pre, c.is_node = false) (hpost : ∀ c ∈ post, c.is_node = false)
    (hsorted : r.cells.Pairwise (fun a b => a.column < b.column))
    (hr : renderRow p r = some tr) :
    tr.filter isLabelPrim =
      [Prim.place_label (nd.column, r.row) (lastColD nd.column post + 1, r.row) r.label] ∧
    ∀ c ∈ r.cells, c.column ≤ lastColD nd.column post := by
  obtain ⟨st, str, hs, rfl⟩ := renderRow_eq hr
  rw [hc] at hs
  obtain ⟨harcs, hnp, hmark, hlast, exPre, exNode, exPost, htr,
    _, _, _, _, h1lb, _, _, _, _, h2lb, _, _, _, _, h3lb⟩ :=
    rowDecomp hpre hnd hpost hs
  obtain ⟨_, _, _, helb, _⟩ := endOfRow_filters st r.row r.label
  constructor
  · rw [htr]
    simp only [List.filter_append, h1lb, h2lb, h3lb, helb, List.nil_append]
    rw [hnp, hlast]
  · intro c hc2
    rw [hc] at hsorted hc2
    rcases List.mem_append.mp hc2 with hcp | hcs
    · obtain ⟨_, hp2, hcross⟩ := List.pairwise_append.mp hsorted
      have h1 : c.column < nd.column := hcross c hcp nd (by simp)
      have h2 := pairwise_le_lastColD post nd hp2 nd (by simp)
      omega
    · obtain ⟨_, hp2, _⟩ := List.pairwise_append.mp hsorted
      exact pairwise_le_lastColD post nd hp2 c hcs

/-- C7 witness: the theorem applied to row C of the concrete `mergePlot`. -/
theorem c7_label_witness :
    List.filter isLabelPrim
      [Prim.place_right_arc (0, 2) 0, Prim.place_vline_arc (0, 0) (0, 2) 0,
       Prim.place_right_arc (1, 2) 1, Prim.place_vline_arc (1, 1) (1, 2) 1,
       Prim.place_node (2, 2) 2 "C", Prim.place_left_hline (0, 2) (2, 2) 0,
       Prim.place_label (2, 2) (3, 2) "C"] =
      [Prim.place_label (2, 2) (2 + 1, 2) "C"] :=
  (@c7_label mergePlot
      ⟨2, "C", [⟨0, 0, false, true, true, 0, 0⟩, ⟨1, 1, false, true, true, 1, 0⟩,
                ⟨2, 2, true, false, false, 2, 0⟩]⟩
      [⟨0, 0, false, true, true, 0, 0⟩, ⟨1, 1, false, true, true, 1, 0⟩] []
      ⟨2, 2, true, false, false, 2, 0⟩
      [Prim.place_right_arc (0, 2) 0, Prim.place_vline_arc (0, 0) (0, 2) 0,
       Prim.place_right_arc (1, 2) 1, Prim.place_vline_arc (1, 1) (1, 2) 1,
       Prim.place_node (2, 2) 2 "C", Prim.place_left_hline (0, 2) (2, 2) 0,
       Prim.place_label (2, 2) (3, 2) "C"]
      rfl rfl (by decide) (by decide) (by decide) (by decide)).1

/-! ### Claim C4 -/

/-- C4: when the scan classifies an input cell as an arc (the cell is not the
node cell and the marker is not 0, i.e. the cell's column precedes or follows
the node's), the step additionally emits exactly one vertical-segment
primitive from the track's origin row down to the current row — namely
`place_vline_arc` — precisely when the cell's final-consumer flag is set; a
non-final arc cell emits no vertical segment. -/
theorem c4_final_vline {p : AbstractPlot} {i : Nat} {lbl : String}
    {st : RowState} {col : AbstractColumn} {c : Nat}
    (hn : col.is_node = false) (hi : col.is_input = true)
    (hnp : st.node_pos ≠ 0) (ho : originColor p col = some c) :
    (processCol p i lbl st col).map (fun s => s.2.filter isVline) =
      some (if col.is_last then
        [Prim.place_vline_arc (col.column, col.start_row) (col.column, i) c]
      else []) := by
  have hfv : finalVline p i col =
      some (if col.is_last then
        [Prim.place_vline_arc (col.column, col.start_row) (col.column, i) c]
      else []) := by
    cases hl : col.is_last with
    | false => simp [finalVline, hl]
    | true => simp [finalVline, hl, ho]
  rcases lt_trichotomy st.node_pos 0 with hlt | heq | hgt
  · rw [processCol_post hn hi hlt, hfv]
    cases hl : col.is_last with
    | false => simp [isVline]
    | true => simp [isVline]
  · exact absurd heq hnp
  · rw [processCol_pre hn hi hgt, hfv]
    cases hl : col.is_last with
    | false => simp [isVline]
    | true => simp [isVline]

/-- C4 witness: the theorem applied to the final input cell of row C of
`mergePlot` (a pre-node arc cell with the final flag set). -/
theorem c4_final_vline_witness :
    (processCol mergePlot 2 "C" initState ⟨0, 0, false, true, true, 0, 0⟩).map
        (fun s => s.2.filter isVline) =
      some (if (⟨0, 0, false, true, true, 0, 0⟩ : AbstractColumn).is_last then
        [Prim.place_vline_arc (0, 0) (0, 2) 0]
      else []) :=
  @c4_final_vline mergePlot 2 "C" initState ⟨0, 0, false, true, true, 0, 0⟩ 0
    rfl rfl (by decide) (by decide)

/-! ### Claim C8 -/

/-- C8: rendering is deterministic.  The embedding of `render` is a pure
function of the plot — the source walks rows and columns in their stored
order, holds no hidden state and consults no external input — so two runs on
the same plot issue identical sequences of primitive calls (and the backend,
fed identical call sequences, serializes identical output). -/
theorem c8_deterministic (p₁ p₂ : AbstractPlot) (h : p₁ = p₂) :
    render p₁ = render p₂ :=
  congrArg render h

/-- C8 witness: two runs on the concrete `mergePlot` agree. -/
theorem c8_deterministic_witness : render mergePlot = render mergePlot :=
  c8_deterministic mergePlot mergePlot rfl

/-! ### Claim C5 -/

/-- C5, counterexample: on the plot described by the claim — row C holds two
final input cells at columns 0 and 1, both preceding its node cell at
column 2 — `render` emits NO right-horizontal connector at all: merging the
two pre-node inputs is done by the `place_left_hline` primitive (emitted at
the node cell), not by `place_right_hline` as the claim states. -/
theorem c5_counterexample :
    render mergePlot = some mergeTrace ∧
    mergeTrace.filter isRightHline = [] ∧
    (mergeTrace.filter isLeftHline).length = 1 := by
  decide

/-- C5, amended: rendering row C of the merge plot emits a single
LEFT-horizontal connector joining the first pre-node input's column and the
node's own position, plus two vertical segments running from row A and row B
down to row C. -/
theorem c5_amended :
    render mergePlot = some mergeTrace ∧
    mergeTrace.filter isHline = [Prim.place_left_hline (0, 2) (2, 2) 0] ∧
    mergeTrace.filter isVline =
      [Prim.place_vline_arc (0, 0) (0, 2) 0,
       Prim.place_vline_arc (1, 1) (1, 2) 1] := by
  decide

/-! ### The plot builder, modelled from the spec

The module `abstract.py` (the `AbstractPlot` / row / column classes and the
track bookkeeping behind `add_row` / `add_input` / `add_node`) is not among
the sources; only its caller `make_abstract_plot` (in `src/dagviz/__init__.py`)
is.  The definitions below therefore model the builder from the
specification: §3 "Track", §4.1 "Plot Builder" and §7 "Error handling". -/

/-- Modelled from the spec: `InvalidOrderingError` — "the supplied node
sequence references a predecessor whose track was never opened (not a valid
topological order)".  The payload records the offending predecessor. -/
inductive InvalidOrderingError where
  | invalidOrdering : Nat → InvalidOrderingError
deriving DecidableEq, Inhabited

/-- Modelled from the spec: the input contract of `make_abstract_plot` — an
ordered sequence of node identifiers plus, per node, its predecessor set,
its successor count and a display label. -/
structure DiGraph where
  preds : Nat → List Nat
  succCount : Nat → Nat
  label : Nat → String

/-- Modelled from the spec: an open track — "the open-edge state held by the
Plot Builder during construction": the producing node, the number of its
successors not yet consumed, the track's color id and the row where it was
opened. -/
structure Track where
  node : Nat
  remaining : Nat
  color : Nat
  origin : Nat
deriving DecidableEq, Inhabited

/-- Modelled from the spec: the arena of §9 — a mapping from column index to
open-track metadata (`none` = the column is free), plus the rows built so
far. -/
structure BuildState where
  tracks : List (Option Track)
  rows : List AbstractRow
deriving Inhabited

/-- Find the open track of a node: its column index and metadata. -/
def findTrackAux (nd : Nat) : List (Option Track) → Nat → Option (Nat × Track)
  | [], _ => none
  | none :: ts, i => findTrackAux nd ts (i + 1)
  | some t :: ts, i =>
      if t.node = nd then some (i, t) else findTrackAux nd ts (i + 1)

/-- Find the open track of a node in the arena. -/
def findTrack (tracks : List (Option Track)) (nd : Nat) : Option (Nat × Track) :=
  findTrackAux nd tracks 0

/-- The lowest-numbered free column of the arena (its length when none is
free — "failing that, extend the column range"). -/
def firstFree : List (Option Track) → Nat
  | [] => 0
  | none :: _ => 0
  | some _ :: ts => firstFree ts + 1

/-- Write a track cell at a column, extending the arena when the column is
the fresh one just past its end. -/
def storeTrack (tracks : List (Option Track)) (i : Nat) (v : Option Track) :
    List (Option Track) :=
  if i < tracks.length then tracks.set i v else tracks ++ [v]

/-- Modelled from the spec: a row's cells are kept in ascending column order
("insertion order follows ascending column index"). -/
def insertCell (c : AbstractColumn) : List AbstractColumn → List AbstractColumn
  | [] => [c]
  | d :: ds => if c.column < d.column then c :: d :: ds else d :: insertCell c ds

/-- Modelled from the spec (§4.1 step 2): consume one predecessor — locate
its open track (`InvalidOrderingError` when there is none), decrement the
remaining successor count, record an Input cell at the track's column with
the track's color, origin-row back-reference and
`is_final = (remaining == 0)`, and free the column when final. -/
def addInputStep (acc : List (Option Track) × List AbstractColumn) (pr : Nat) :
    Except InvalidOrderingError (List (Option Track) × List AbstractColumn) :=
  match findTrack acc.1 pr with
  | none => .error (.invalidOrdering pr)
  | some (c, t) =>
      let remaining := t.remaining - 1
      let cell : AbstractColumn :=
        ⟨(c : Int), t.color, false, true, remaining = 0, t.origin, 0⟩
      let tracks :=
        if remaining = 0 then acc.1.set c none
        else acc.1.set c (some ⟨t.node, remaining, t.color, t.origin⟩)
      .ok (tracks, insertCell cell acc.2)

/-- Modelled from the spec (§4.1 steps 1 and 3): place the row's own node —
allocate the lowest free column (immediately reusing columns freed by this
row's final inputs, as the straight-through chain scenario of §8 requires),
give the track the column index as its color id (a cyclic palette index; §9
leaves the binding open), record a Node cell with the successor count, and
open a track unless the node has no successors (such a track is closed
immediately).  When the allocated column already carries one of this row's
input cells, the node role is merged into that cell. -/
def addNode (rowIdx nd nsucc : Nat)
    (tracks : List (Option Track)) (cells : List AbstractColumn) :
    List (Option Track) × List AbstractColumn :=
  let c := firstFree tracks
  let tracks2 :=
    if nsucc = 0 then tracks
    else storeTrack tracks c (some ⟨nd, nsucc, c, rowIdx⟩)
  let cells2 :=
    if cells.any (fun d => d.column == (c : Int)) then
      cells.map (fun d =>
        if d.column == (c : Int) then
          ⟨d.column, c, true, d.is_input, d.is_last, d.start_row, nsucc⟩
        else d)
    else insertCell ⟨(c : Int), c, true, false, false, rowIdx, nsucc⟩ cells
  (tracks2, cells2)

/-- One node of the sequence, following the order of `make_abstract_plot`:
add a row, add an input per predecessor, then add the node itself. -/
def processNode (G : DiGraph) (rowIdx : Nat) (st : BuildState) (nd : Nat) :
    Except InvalidOrderingError BuildState := do
  let acc ← (G.preds nd).foldlM addInputStep (st.tracks, [])
  let r := addNode rowIdx nd (G.succCount nd) acc.1 acc.2
  .ok ⟨r.1, st.rows ++ [⟨rowIdx, G.label nd, r.2⟩]⟩

/-- The node loop of `make_abstract_plot` over the remaining sequence. -/
def buildRows (G : DiGraph) : List Nat → Nat → BuildState →
    Except InvalidOrderingError BuildState
  | [], _, st => .ok st
  | nd :: rest, i, st => do
      let st2 ← processNode G i st nd
      buildRows G rest (i + 1) st2

/-- Embedding of `make_abstract_plot` from `src/dagviz/__init__.py`, over the modelled
builder: one row per node of the sequence; the palette size is the arena
length (its peak concurrent track count) and the minimum column is 0 (the
modelled allocator never assigns negative columns). -/
def makeAbstractPlot (G : DiGraph) (seq : List Nat) :
    Except InvalidOrderingError AbstractPlot := do
  let st ← buildRows G seq 0 ⟨[], []⟩
  .ok ⟨st.rows, st.tracks.length, 0⟩

/-- Embedding of `render_svg` from `src/dagviz/__init__.py`: build the abstract plot, then
render it (the trace stands for the serialized SVG). -/
def render_svg (G : DiGraph) (seq : List Nat) :
    Except InvalidOrderingError (Option (List Prim)) := do
  let plot ← makeAbstractPlot G seq
  .ok (render plot)

deriving instance DecidableEq for Except

/-! ### Claim C3 -/

/-- The 4-node linear chain `0 → 1 → 2 → 3` of the spec's scenario. -/
def gChain : DiGraph :=
  ⟨fun n => match n with | 1 => [0] | 2 => [1] | 3 => [2] | _ => [],
   fun n => match n with | 0 => 1 | 1 => 1 | 2 => 1 | _ => 0,
   fun n => toString n⟩

/-- The abstract plot the modelled builder produces for the chain. -/
def chainPlot : AbstractPlot :=
  match makeAbstractPlot gChain [0, 1, 2, 3] with
  | .ok q => q
  | .error _ => default

/-- C3: an input cell that sits exactly at the row's own node-cell column is
the node cell itself (a row holds one cell per column, so the straight
pass-through is the cell carrying both roles); processing it emits exactly
one straight vertical-line primitive, `place_vline_node`, from the track's
origin row down to this row, and no arc primitive.  In particular, in the
linear chain plot every row after the first renders with exactly one
vertical-line primitive and no arc primitives. -/
theorem c3_straight :
    (∀ (p : AbstractPlot) (i : Nat) (lbl : String) (st : RowState)
       (col : AbstractColumn) (c : Nat),
      col.is_node = true → col.is_input = true → originColor p col = some c →
      (processCol p i lbl st col).map
          (fun s => (s.2.filter isVline, s.2.filter isLeftArc, s.2.filter isRightArc)) =
        some ([Prim.place_vline_node (col.column, col.start_row) (col.column, i) c],
          [], [])) ∧
    makeAbstractPlot gChain [0, 1, 2, 3] = .ok chainPlot ∧
    (∀ r ∈ chainPlot.rows, 1 ≤ r.row →
      (renderRow chainPlot r).map
          (fun tr => ((tr.filter isVline).length, tr.filter isLeftArc, tr.filter isRightArc)) =
        some (1, [], [])) := by
  refine ⟨?_, by decide, by decide⟩
  intro p i lbl st col c hn hi ho
  rw [processCol_combined hn hi, ho]
  cases ha : st.arcs with
  | nil => simp [nodeHline, isVline, isLeftArc, isRightArc]
  | cons a rest => simp [nodeHline, isVline, isLeftArc, isRightArc]

/-- C3 witness: the cell-level part applied to the combined node-and-input
cell of row 1 of the chain plot. -/
theorem c3_straight_witness :
    (processCol chainPlot 1 "1" initState ⟨0, 0, true, true, true, 0, 1⟩).map
        (fun s => (s.2.filter isVline, s.2.filter isLeftArc, s.2.filter isRightArc)) =
      some ([Prim.place_vline_node (0, 0) (0, 1) 0], [], []) :=
  c3_straight.1 chainPlot 1 "1" initState ⟨0, 0, true, true, true, 0, 1⟩ 0
    rfl rfl (by decide)

/-! ### Claim C6 -/

/-- The producing nodes of the open tracks of an arena. -/
def trackNodes : List (Option Track) → List Nat
  | [] => []
  | none :: ts => trackNodes ts
  | some t :: ts => t.node :: trackNodes ts

theorem findTrackAux_none {q : Nat} :
    ∀ (ts : List (Option Track)) (i : Nat), q ∉ trackNodes ts →
      findTrackAux q ts i = none := by
  intro ts
  induction ts with
  | nil => intro i _; rfl
  | cons a ts ih =>
    intro i hq
    cases a with
    | none => exact ih (i + 1) (by simpa [trackNodes] using hq)
    | some t =>
      simp only [trackNodes, List.mem_cons] at hq
      push_neg at hq
      have hneq : ¬ t.node = q := fun h => hq.1 h.symm
      simp only [findTrackAux, if_neg hneq]
      exact ih (i + 1) hq.2

theorem findTrack_some_node {ts : List (Option Track)} {nd : Nat} {c : Nat} {t : Track}
    (h : findTrack ts nd = some (c, t)) : t.node = nd := by
  unfold findTrack at h
  revert h
  generalize 0 = i
  induction ts generalizing i with
  | nil => intro h; simp [findTrackAux] at h
  | cons a ts ih =>
    intro h
    cases a with
    | none => exact ih _ h
    | some u =>
      by_cases hu : u.node = nd
      · simp [findTrackAux, hu] at h
        rw [← h.2]
        exact hu
      · simp [findTrackAux, hu] at h
        exact ih _ h

theorem mem_trackNodes_set {q : Nat} :
    ∀ (ts : List (Option Track)) (i : Nat) (v : Option Track),
      q ∈ trackNodes (ts.set i v) →
      q ∈ trackNodes ts ∨ ∃ t, v = some t ∧ q = t.node := by
  intro ts
  induction ts with
  | nil => intro i v h; simp [trackNodes] at h
  | cons a ts ih =>
    intro i v h
    cases i with
    | zero =>
      rw [List.set_cons_zero] at h
      cases v with
      | none =>
        cases a with
        | none => exact Or.inl h
        | some u => exact Or.inl (by simp [trackNodes]; exact Or.inr h)
      | some t =>
        simp [trackNodes] at h
        rcases h with rfl | h
        · exact Or.inr ⟨t, rfl, rfl⟩
        ·
          cases a with
          | none => exact Or.inl h
          | some u => exact Or.inl (by simp [trackNodes]; exact Or.inr h)
    | succ j =>
      rw [List.set_cons_succ] at h
      cases a with
      | none => rcases ih j v h with h2 | h2
                · exact Or.inl h2
                · exact Or.inr h2
      | some u =>
        simp [trackNodes] at h
        rcases h with rfl | h
        · exact Or.inl (by simp [trackNodes])
        · rcases ih j v h with h2 | h2
          · exact Or.inl (by simp [trackNodes]; exact Or.inr h2)
          · exact Or.inr h2

theorem mem_trackNodes_append {q : Nat} :
    ∀ (ts : List (Option Track)) (v : Option Track),
      q ∈ trackNodes (ts ++ [v]) →
      q ∈ trackNodes ts ∨ ∃ t, v = some t ∧ q = t.node := by
  intro ts
  induction ts with
  | nil =>
    intro v h
    cases v with
    | none =>
      rw [show trackNodes ([] ++ [none]) = ([] : List Nat) from rfl] at h
      exact absurd h (List.not_mem_nil q)
    | some t =>
      rw [show trackNodes ([] ++ [some t]) = [t.node] from rfl] at h
      exact Or.inr ⟨t, rfl, by simpa using h⟩
  | cons a ts ih =>
    intro v h
    cases a with
    | none => exact ih v h
    | some u =>
      simp only [List.cons_append, trackNodes, List.mem_cons] at h
      rcases h with rfl | h
      · exact Or.inl (by simp [trackNodes])
      · rcases ih v h with h2 | h2
        · exact Or.inl (by simp [trackNodes]; exact Or.inr h2)
        · exact Or.inr h2

theorem mem_trackNodes_store {q : Nat} {ts : List (Option Track)} {i : Nat}
    {v : Option Track} (h : q ∈ trackNodes (storeTrack ts i v)) :
    q ∈ trackNodes ts ∨ ∃ t, v = some t ∧ q = t.node := by
  unfold storeTrack at h
  by_cases hi : i < ts.length
  · rw [if_pos hi] at h
    exact mem_trackNodes_set ts i v h
  · rw [if_neg hi] at h
    exact mem_trackNodes_append ts v h

theorem findTrack_some_mem {ts : List (Option Track)} {nd : Nat} {c : Nat} {t : Track}
    (h : findTrack ts nd = some (c, t)) : nd ∈ trackNodes ts := by
  unfold findTrack at h
  revert h
  generalize 0 = i
  induction ts generalizing i with
  | nil => intro h; simp [findTrackAux] at h
  | cons a ts ih =>
    intro h
    cases a with
    | none => exact ih _ h
    | some u =>
      by_cases hu : u.node = nd
      · simp [trackNodes, hu]
      · simp [findTrackAux, hu] at h
        simp [trackNodes]
        exact Or.inr (ih _ h)

theorem addInputStep_subset {acc acc' : List (Option Track) × List AbstractColumn}
    {pr : Nat} (h : addInputStep acc pr = .ok acc') :
    ∀ q ∈ trackNodes acc'.1, q ∈ trackNodes acc.1 := by
  intro q hq
  unfold addInputStep at h
  cases hf : findTrack acc.1 pr with
  | none => rw [hf] at h; exact absurd h (by simp)
  | some ct =>
    obtain ⟨c, t⟩ := ct
    rw [hf] at h
    simp only [Except.ok.injEq] at h
    subst h
    dsimp only at hq
    by_cases hr : t.remaining - 1 = 0
    · rw [if_pos hr] at hq
      rcases mem_trackNodes_set acc.1 c none hq with h2 | h2
      · exact h2
      · obtain ⟨u, hu, _⟩ := h2
        exact absurd hu (by simp)
    · rw [if_neg hr] at hq
      rcases mem_trackNodes_set acc.1 c (some ⟨t.node, t.remaining - 1, t.color, t.origin⟩) hq
        with h2 | h2
      · exact h2
      · obtain ⟨u, hu, hqu⟩ := h2
        cases Option.some.inj hu
        subst hqu
        have hnode : t.node = pr := findTrack_some_node hf
        rw [show Track.node ⟨t.node, t.remaining - 1, t.color, t.origin⟩ = t.node from rfl,
          hnode]
        exact findTrack_some_mem hf

theorem foldInputs_subset :
    ∀ (preds : List Nat) (acc acc' : List (Option Track) × List AbstractColumn),
    List.foldlM addInputStep acc preds = .ok acc' →
    ∀ q ∈ trackNodes acc'.1, q ∈ trackNodes acc.1 := by
  intro preds
  induction preds with
  | nil =>
    intro acc acc' h q hq
    obtain rfl : acc = acc' := Except.ok.inj h
    exact hq
  | cons pr rest ih =>
    intro acc acc' h q hq
    rw [show List.foldlM addInputStep acc (pr :: rest) =
          (addInputStep acc pr).bind (fun a1 => List.foldlM addInputStep a1 rest)
        from rfl] at h
    cases h1 : addInputStep acc pr with
    | error e => rw [h1] at h; exact absurd h (by simp [Except.bind])
    | ok a1 =>
      rw [h1] at h
      exact addInputStep_subset h1 q (ih a1 acc' h q hq)

theorem foldInputs_err :
    ∀ (preds : List Nat) (acc : List (Option Track) × List AbstractColumn) (q : Nat),
    q ∈ preds → q ∉ trackNodes acc.1 →
    ∃ e, List.foldlM addInputStep acc preds = .error e := by
  intro preds
  induction preds with
  | nil => intro acc q hq _; simp at hq
  | cons pr rest ih =>
    intro acc q hq hnt
    rw [show List.foldlM addInputStep acc (pr :: rest) =
          (addInputStep acc pr).bind (fun a1 => List.foldlM addInputStep a1 rest)
        from rfl]
    by_cases hpr : q = pr
    · subst hpr
      have hft : findTrack acc.1 q = none := findTrackAux_none acc.1 0 hnt
      refine ⟨.invalidOrdering q, ?_⟩
      unfold addInputStep
      rw [hft]
      rfl
    · have hq2 : q ∈ rest := by
        rcases List.mem_cons.mp hq with h | h
        · exact absurd h hpr
        · exact h
      cases h1 : addInputStep acc pr with
      | error e => exact ⟨e, rfl⟩
      | ok a1 =>
        have hnt2 : q ∉ trackNodes a1.1 := fun hmem => hnt (addInputStep_subset h1 q hmem)
        obtain ⟨e, he⟩ := ih a1 q hq2 hnt2
        exact ⟨e, he⟩

theorem processNode_mem {G : DiGraph} {i : Nat} {st st' : BuildState} {nd : Nat}
    (h : processNode G i st nd = .ok st') :
    ∀ q ∈ trackNodes st'.tracks, q = nd ∨ q ∈ trackNodes st.tracks := by
  intro q hq
  unfold processNode at h
  cases h1 : List.foldlM addInputStep (st.tracks, ([] : List AbstractColumn)) (G.preds nd) with
  | error e => rw [h1] at h; exact Except.noConfusion h
  | ok acc =>
    rw [h1] at h
    have h2 := Except.ok.inj h
    subst h2
    dsimp only [addNode] at hq
    by_cases hs : G.succCount nd = 0
    · rw [if_pos hs] at hq
      exact Or.inr (foldInputs_subset (G.preds nd) _ acc h1 q hq)
    · rw [if_neg hs] at hq
      rcases mem_trackNodes_store hq with h2 | h2
      · exact Or.inr (foldInputs_subset (G.preds nd) _ acc h1 q h2)
      · obtain ⟨u, hu, hqu⟩ := h2
        cases Option.some.inj hu
        exact Or.inl hqu

theorem processNode_err {G : DiGraph} {i : Nat} {st : BuildState} {nd q : Nat}
    (hq : q ∈ G.preds nd) (hnt : q ∉ trackNodes st.tracks) :
    ∃ e, processNode G i st nd = .error e := by
  obtain ⟨e, he⟩ := foldInputs_err (G.preds nd) (st.tracks, []) q hq hnt
  refine ⟨e, ?_⟩
  unfold processNode
  rw [he]
  rfl

theorem buildRows_err {G : DiGraph} {nd p : Nat} {l₂ : List Nat}
    (hp : p ∈ G.preds nd) :
    ∀ (l₁ : List Nat) (i : Nat) (st : BuildState),
    p ∉ l₁ → p ∉ trackNodes st.tracks →
    ∃ e, buildRows G (l₁ ++ nd :: l₂) i st = .error e := by
  intro l₁
  induction l₁ with
  | nil =>
    intro i st _ hnt
    obtain ⟨e, he⟩ := processNode_err hp hnt (i := i)
    refine ⟨e, ?_⟩
    rw [List.nil_append, show buildRows G (nd :: l₂) i st =
      (processNode G i st nd).bind (fun st2 => buildRows G l₂ (i + 1) st2) from rfl, he]
    rfl
  | cons h t ih =>
    intro i st hl hnt
    have hph : p ≠ h := fun he => hl (by simp [he])
    have hpt : p ∉ t := fun hm => hl (by simp [hm])
    rw [List.cons_append, show buildRows G (h :: (t ++ nd :: l₂)) i st =
      (processNode G i st h).bind (fun st2 => buildRows G (t ++ nd :: l₂) (i + 1) st2)
      from rfl]
    cases h1 : processNode G i st h with
    | error e => exact ⟨e, rfl⟩
    | ok st2 =>
      have hnt2 : p ∉ trackNodes st2.tracks := by
        intro hmem
        rcases processNode_mem h1 p hmem with h2 | h2
        · exact hph h2
        · exact hnt h2
      obtain ⟨e, he⟩ := ih (i + 1) st2 hpt hnt2
      exact ⟨e, by rw [show ((Except.ok st2 : Except InvalidOrderingError BuildState).bind
        (fun st2 => buildRows G (t ++ nd :: l₂) (i + 1) st2)) =
        buildRows G (t ++ nd :: l₂) (i + 1) st2 from rfl, he]⟩

/-- C6: for every node sequence in which some node's predecessor appears only
after it (the predecessor `p` of `nd` occurs neither before `nd` nor is `nd`
itself), plot construction fails with `InvalidOrderingError`, and `render_svg`
surfaces exactly that error to the caller — the renderer never runs, so no
drawing primitive is emitted (the error result carries no trace). -/
theorem c6_invalid_ordering (G : DiGraph) (l₁ l₂ : List Nat) (nd p : Nat)
    (hp : p ∈ G.preds nd) (h1 : p ∉ l₁) (h2 : p ≠ nd) :
    ∃ e, makeAbstractPlot G (l₁ ++ nd :: l₂) = .error e ∧
      render_svg G (l₁ ++ nd :: l₂) = .error e := by
  obtain ⟨e, he⟩ := buildRows_err hp l₁ 0 ⟨[], []⟩ h1 (by simp [trackNodes])
  refine ⟨e, ?_, ?_⟩
  · unfold makeAbstractPlot
    rw [he]
    rfl
  · unfold render_svg makeAbstractPlot
    rw [he]
    rfl

/-- The 2-node graph with the single edge `0 → 1`. -/
def gPair : DiGraph :=
  ⟨fun n => match n with | 1 => [0] | _ => [],
   fun n => match n with | 0 => 1 | _ => 0,
   fun n => toString n⟩

/-- C6 witness: the theorem applied to `gPair` with the reversed (invalid)
ordering `[1, 0]`. -/
theorem c6_invalid_ordering_witness :
    ∃ e, makeAbstractPlot gPair ([] ++ 1 :: [0]) = .error e ∧
      render_svg gPair ([] ++ 1 :: [0]) = .error e :=
  c6_invalid_ordering gPair [] [0] 1 0 (by decide) (by decide) (by decide)

/-! ### Claim C10 — the palette generator (`src/dagviz/style/colors.py`)

Python floats are embedded as exact rationals.  The quantities the proofs
depend on have huge margins (every RGB channel value stays at most 0.85,
far from the two-hex-digit boundary at 1.0), and the loop state `hue`,
`lightness` only ever holds the exact small integers 0–6 and 0–2, so the
embedding is faithful to the float computation.  `Rat.add` and friends are
marked irreducible in the library; they are made semireducible here so that
concrete rational arithmetic evaluates inside `decide`. -/

section Palette

attribute [local semireducible] Rat.add Rat.mul Rat.inv Rat.sub Rat.ofScientific

/-- Python's float `%` with a positive modulus: `x % m = x - m * floor (x / m)`,
a value in `[0, m)`. -/
def pyMod (x m : ℚ) : ℚ := x - m * ⌊x / m⌋

/-- Embeds `colorsys.ONE_THIRD`. -/
def ONE_THIRD : ℚ := 1 / 3

/-- Embeds `colorsys.ONE_SIXTH`. -/
def ONE_SIXTH : ℚ := 1 / 6

/-- Embeds `colorsys.TWO_THIRD`. -/
def TWO_THIRD : ℚ := 2 / 3

/-- Embeds `colorsys._v`, the piecewise-linear channel interpolation. -/
def hls_v (m1 m2 hue : ℚ) : ℚ :=
  let hue := pyMod hue 1
  if hue < ONE_SIXTH then m1 + (m2 - m1) * hue * 6
  else if hue < 1 / 2 then m2
  else if hue < TWO_THIRD then m1 + (m2 - m1) * (TWO_THIRD - hue) * 6
  else m1

/-- Embeds `colorsys.hls_to_rgb`. -/
def hls_to_rgb (h l s : ℚ) : ℚ × ℚ × ℚ :=
  if s = 0 then (l, l, l)
  else
    let m2 := if l ≤ 1 / 2 then l * (1 + s) else l + s - l * s
    let m1 := 2 * l - m2
    (hls_v m1 m2 (h + ONE_THIRD), hls_v m1 m2 h, hls_v m1 m2 (h - ONE_THIRD))

/-- The hexadecimal digits of a natural number, lowercase
(`Nat.digitChar` maps 10–15 to `a`–`f`). -/
def hexDigits (n : Nat) : List Char := Nat.toDigits 16 n

/-- Python's `format(n, "02x")` for a natural number: lowercase hex digits,
zero-padded on the left to a minimum width of 2 (wider numbers keep all
their digits). -/
def format02x (n : Nat) : String :=
  ⟨List.replicate (2 - (hexDigits n).length) '0' ++ hexDigits n⟩

/-- One palette entry: `f"#{int(r*256):02x}{int(g*256):02x}{int(b*256):02x}"`.
`int()` truncates toward zero, which is the floor for the nonnegative channel
values produced here. -/
def colorHex (r g b : ℚ) : String :=
  "#" ++ format02x (⌊r * 256⌋).toNat ++ format02x (⌊g * 256⌋).toNat ++
    format02x (⌊b * 256⌋).toNat

/-- The loop of `palette`: emit the color of the current `(hue, lightness)`
state, then advance `hue` cyclically modulo 7 and bump `lightness` modulo 3
whenever `hue` wraps to 0. -/
def paletteAux (saturation : ℚ) : Nat → ℚ → ℚ → List String
  | 0, _, _ => []
  | n + 1, hue, lightness =>
      let c := hls_to_rgb (hue / 6) (0.4 + lightness / 2 * 0.3) saturation
      let hue2 := pyMod (hue + 1) 7
      let lightness2 := if hue2 = 0 then pyMod (lightness + 1) 3 else lightness
      colorHex c.1 c.2.1 c.2.2 :: paletteAux saturation n hue2 lightness2

/-- Embedding of `palette` from `src/dagviz/style/colors.py`: starting state
`hue, lightness, saturation = 0.0, 1.0, 0.5`. -/
def palette (ncolors : Nat) : List String := paletteAux 0.5 ncolors 0 1

/-- A lowercase hexadecimal digit. -/
def isHexLowerDigit (ch : Char) : Bool :=
  (('0' ≤ ch && ch ≤ '9') || ('a' ≤ ch && ch ≤ 'f'))

/-- A well-formed palette entry: `#` followed by exactly six lowercase
hexadecimal digits. -/
def isValidColor (s : String) : Bool :=
  match s.data with
  | '#' :: rest => rest.length == 6 && rest.all isHexLowerDigit
  | _ => false

/-- The hue values reachable in the palette loop. -/
def stateHues : List ℚ := [0, 1, 2, 3, 4, 5, 6]

/-- The lightness values reachable in the palette loop. -/
def stateLights : List ℚ := [0, 1, 2]

theorem paletteStep_good :
    ∀ h ∈ stateHues, ∀ l ∈ stateLights,
      pyMod (h + 1) 7 ∈ stateHues ∧
      (if pyMod (h + 1) 7 = 0 then pyMod (l + 1) 3 else l) ∈ stateLights ∧
      isValidColor (colorHex
        (hls_to_rgb (h / 6) (0.4 + l / 2 * 0.3) 0.5).1
        (hls_to_rgb (h / 6) (0.4 + l / 2 * 0.3) 0.5).2.1
        (hls_to_rgb (h / 6) (0.4 + l / 2 * 0.3) 0.5).2.2) = true := by
  decide

theorem paletteAux_good :
    ∀ (n : Nat) (h l : ℚ), h ∈ stateHues → l ∈ stateLights →
      (paletteAux 0.5 n h l).length = n ∧
      ∀ s ∈ paletteAux 0.5 n h l, isValidColor s = true := by
  intro n
  induction n with
  | zero => intro h l _ _; exact ⟨rfl, by simp [paletteAux]⟩
  | succ m ih =>
    intro h l hh hl
    obtain ⟨hstep, hlight, hcolor⟩ := paletteStep_good h hh l hl
    obtain ⟨ihlen, ihval⟩ :=
      ih (pyMod (h + 1) 7) (if pyMod (h + 1) 7 = 0 then pyMod (l + 1) 3 else l) hstep hlight
    constructor
    · simp [paletteAux, ihlen]
    · intro s hs
      simp only [paletteAux, List.mem_cons] at hs
      rcases hs with rfl | hs
      · exact hcolor
      · exact ihval s hs

/-- C10: for every natural `n`, `palette n` returns exactly `n` color
strings, each of them `#` followed by exactly six lowercase hexadecimal
digits — every RGB component `int(c * 256)` stays within two hex digits for
every reachable hue/lightness combination (all channel values lie in
`[0.325, 0.85]`, so the component is at most 217). -/
theorem c10_palette (n : Nat) :
    (palette n).length = n ∧ ∀ s ∈ palette n, isValidColor s = true :=
  paletteAux_good n 0 1 (by decide) (by decide)

/-- C10 witness: the first generated color is valid (and concretely equals
`#c65353`). -/
theorem c10_palette_witness :
    palette 1 = ["#c65353"] ∧ isValidColor "#c65353" = true :=
  ⟨by decide, (c10_palette 1).2 "#c65353" (by decide)⟩

end Palette

end Dagviz
